import Mathlib

/-!
# Verification of the vban-rust audio streaming pipeline (src/main.rs)

A shallow embedding of the pipeline's pure cores:

* Samples are `f32` values in the Rust source.  `f32::to_le_bytes` is a
  bit-exact transmutation of the 32-bit IEEE-754 pattern, and
  `f32::from_le_bytes` is its bit-exact converse, so we model a sample by its
  32-bit pattern: a `Nat` below `2 ^ 32`.  Bytes (`u8`) are `Nat` below `256`.
* The transmitter's sender thread (main.rs 189-196) encodes a buffer with
  `buffer.iter().flat_map(|s| s.to_le_bytes())` — `encodeBuffer` below.
* The receiver's socket thread (main.rs 99-111) decodes a received byte slice
  with `chunks_exact(4).map(|b| f32::from_le_bytes([b[0],b[1],b[2],b[3]]))`
  — `decodeDatagram` below — into a fixed 4096-byte reception buffer
  (`recvBufSize`).
* The capture callback `input_data_fn` (main.rs 163-176) duplicates samples of
  a mono buffer and passes any other channel count through unchanged.
* The playback callback `output_data_fn` (main.rs 113-123) polls the inbound
  queue; on success it copies the arrived samples into the output buffer up to
  the shorter length (`zip` of `iter_mut` with `iter`), otherwise it fills the
  output buffer with `0.0` (bit pattern 0).
-/

set_option autoImplicit false

namespace Vban

/-- `f32::to_le_bytes` on the 32-bit pattern `s`: the four little-endian bytes
(main.rs line 192, `s.to_le_bytes()`). -/
def to_le_bytes (s : Nat) : List Nat :=
  [s % 256, s / 256 % 256, s / 65536 % 256, s / 16777216 % 256]

/-- `f32::from_le_bytes [b0, b1, b2, b3]` on bit patterns (main.rs line 105). -/
def from_le_bytes (b0 b1 b2 b3 : Nat) : Nat :=
  b0 + 256 * b1 + 65536 * b2 + 16777216 * b3

/-- The sender thread's packet construction (main.rs line 192):
`buffer.iter().flat_map(|s| s.to_le_bytes()).collect()`. -/
def encodeBuffer : List Nat → List Nat
  | [] => []
  | s :: rest => to_le_bytes s ++ encodeBuffer rest

/-- The receiver thread's decode (main.rs lines 103-106):
`buffer[..amt].chunks_exact(4).map(|b| f32::from_le_bytes(..)).collect()`.
`chunks_exact(4)` yields only complete 4-byte chunks and drops the remainder. -/
def decodeDatagram : List Nat → List Nat
  | b0 :: b1 :: b2 :: b3 :: rest => from_le_bytes b0 b1 b2 b3 :: decodeDatagram rest
  | _ => []

/-- Size in bytes of the receiver's fixed reception buffer
(main.rs line 100, `let mut buffer = [0u8; 4096]`). -/
def recvBufSize : Nat := 4096

/-- The mono-duplication loop of the capture callback (main.rs lines 168-171):
each sample is pushed twice. -/
def duplicateSamples : List Nat → List Nat
  | [] => []
  | s :: rest => s :: s :: duplicateSamples rest

/-- The capture callback `input_data_fn` (main.rs lines 163-176): the buffer it
sends to the outbound queue, as a function of the channel count and the raw
captured buffer.  Mono input is duplicated; anything else is passed through
(`data.to_vec()`). -/
def input_data_fn (nb_channels : Nat) (data : List Nat) : List Nat :=
  if nb_channels = 1 then duplicateSamples data else data

/-- The copy loop of the playback callback (main.rs lines 115-117):
`for (d, s) in data.iter_mut().zip(samples.iter()) { *d = *s }`.
First argument: the arrived samples; second: the previous contents of the
output buffer.  Positions past the shorter length keep their old value. -/
def copySamples : List Nat → List Nat → List Nat
  | [], data => data
  | _ :: _, [] => []
  | s :: ss, _ :: ds => s :: copySamples ss ds

/-- The playback callback `output_data_fn` (main.rs lines 113-123): the output
buffer contents after the callback, as a function of the result of
`rx.try_recv()` (`some samples` on success, `none` on an empty queue) and the
buffer's prior contents.  On an empty queue, `data.fill(0.0)` overwrites every
position with `0.0` (bit pattern 0). -/
def output_data_fn (polled : Option (List Nat)) (data : List Nat) : List Nat :=
  match polled with
  | some samples => copySamples samples data
  | none => data.map (fun _ => 0)

/-- One operation on an spsc channel endpoint: a producer send or a consumer
receive attempt. -/
inductive ChanOp (α : Type) : Type
  | send (x : α) : ChanOp α
  | recv : ChanOp α

/-- Modelled from the spec: the `std::sync::mpsc::channel` queues created at
main.rs lines 97 and 160 are not part of this repository's sources; §4.2 of the
spec describes them as single-producer/single-consumer unbounded FIFO channels
"preserving producer send order on the consumer side".  `chanRun ops q` runs an
interleaved trace of producer sends and consumer receive attempts against a
FIFO queue with initial contents `q` and returns the values the consumer
received, in order; a receive on an empty queue yields nothing (the `try_recv`
error / blocked `recv` case). -/
def chanRun {α : Type} : List (ChanOp α) → List α → List α
  | [], _ => []
  | ChanOp.send x :: rest, q => chanRun rest (q ++ [x])
  | ChanOp.recv :: rest, [] => chanRun rest []
  | ChanOp.recv :: rest, y :: q => y :: chanRun rest q

/-- The values a trace of channel operations sends, in producer order. -/
def chanSends {α : Type} : List (ChanOp α) → List α
  | [] => []
  | ChanOp.send x :: rest => x :: chanSends rest
  | ChanOp.recv :: rest => chanSends rest

/-! ## Helper lemmas -/

theorem from_le_to_le (s : Nat) (h : s < 2 ^ 32) :
    from_le_bytes (s % 256) (s / 256 % 256) (s / 65536 % 256) (s / 16777216 % 256) = s := by
  simp only [from_le_bytes]
  omega

theorem to_le_from_le (b0 b1 b2 b3 : Nat) (h0 : b0 < 256) (h1 : b1 < 256)
    (h2 : b2 < 256) (h3 : b3 < 256) :
    to_le_bytes (from_le_bytes b0 b1 b2 b3) = [b0, b1, b2, b3] := by
  simp only [to_le_bytes, from_le_bytes]
  refine congrArg₂ _ (by omega) (congrArg₂ _ (by omega) (congrArg₂ _ (by omega)
    (congrArg₂ _ (by omega) rfl)))

theorem decodeDatagram_length (bytes : List Nat) :
    (decodeDatagram bytes).length = bytes.length / 4 := by
  induction bytes using decodeDatagram.induct with
  | case1 b0 b1 b2 b3 rest ih =>
      simp only [decodeDatagram, List.length_cons, ih]
      omega
  | case2 l h =>
      match l, h with
      | [], _ => rfl
      | [_], _ => simp [decodeDatagram]
      | [_, _], _ => simp [decodeDatagram]
      | [_, _, _], _ => simp [decodeDatagram]
      | b0 :: b1 :: b2 :: b3 :: rest, h => exact absurd rfl (h b0 b1 b2 b3 rest)

theorem duplicateSamples_length (l : List Nat) :
    (duplicateSamples l).length = 2 * l.length := by
  induction l with
  | nil => rfl
  | cons s rest ih =>
      simp only [duplicateSamples, List.length_cons, ih]
      omega

theorem duplicateSamples_get (l : List Nat) (i : Nat) :
    (duplicateSamples l).get? (2 * i) = l.get? i ∧
      (duplicateSamples l).get? (2 * i + 1) = l.get? i := by
  induction l generalizing i with
  | nil => simp [duplicateSamples]
  | cons s rest ih =>
      cases i with
      | zero => simp [duplicateSamples]
      | succ j =>
          have h2 : 2 * (j + 1) = (2 * j + 1) + 1 := by omega
          simp only [duplicateSamples, h2, List.get?_cons_succ]
          exact ih j

/-! ## Claims -/

/-- C3: for every mono input buffer (channel count 1) of length `N`, the frame
normalizer's output has length `2 * N` and for every `i < N`,
`output[2*i] = output[2*i+1] = input[i]`. -/
theorem mono_duplication (input : List Nat) :
    (input_data_fn 1 input).length = 2 * input.length ∧
      ∀ i, (h : i < input.length) →
        (input_data_fn 1 input).get? (2 * i) = some (input.get ⟨i, h⟩) ∧
          (input_data_fn 1 input).get? (2 * i + 1) = some (input.get ⟨i, h⟩) := by
  refine ⟨duplicateSamples_length input, fun i h => ?_⟩
  have hg := duplicateSamples_get input i
  have hs : input.get? i = some (input.get ⟨i, h⟩) := List.get?_eq_get h
  simp only [input_data_fn, if_pos rfl]
  exact ⟨hg.1.trans hs, hg.2.trans hs⟩

/-- Witness for C3 on the concrete mono buffer `[7, 9]`. -/
theorem mono_duplication_witness :
    (input_data_fn 1 [7, 9]).length = 2 * 2 ∧
      (input_data_fn 1 [7, 9]).get? 2 = some 9 ∧
        (input_data_fn 1 [7, 9]).get? (2 * 1 + 1) = some 9 := by
  have h := mono_duplication [7, 9]
  have h1 := h.2 1 (by decide)
  exact ⟨h.1, by simpa using h1.1, h1.2⟩

/-- C8: for every input buffer whose channel count is not 1, the frame
normalizer passes the buffer through unchanged. -/
theorem passthrough_non_mono (nb_channels : Nat) (h : nb_channels ≠ 1)
    (data : List Nat) : input_data_fn nb_channels data = data := by
  simp [input_data_fn, h]

/-- Witness for C8: a stereo (2-channel) buffer is passed through unchanged. -/
theorem passthrough_non_mono_witness :
    input_data_fn 2 [1, 2, 3, 4] = [1, 2, 3, 4] :=
  passthrough_non_mono 2 (by decide) [1, 2, 3, 4]

/-- C5: if the inbound queue is empty when the playback callback runs
(`try_recv` returns no buffer), every position of the output buffer equals 0
afterwards, whatever it held before: the result is `replicate length 0`. -/
theorem underrun_silence (data : List Nat) :
    output_data_fn none data = List.replicate data.length 0 := by
  simp only [output_data_fn]
  induction data with
  | nil => rfl
  | cons d rest ih => simp [List.replicate, ih]

theorem decodeDatagram_eq_nil (l : List Nat) (h : l.length < 4) :
    decodeDatagram l = [] := by
  match l, h with
  | [], _ => rfl
  | [_], _ => simp [decodeDatagram]
  | [_, _], _ => simp [decodeDatagram]
  | [_, _, _], _ => simp [decodeDatagram]

theorem exists_four_split (l : List Nat) (h : 4 ≤ l.length) :
    ∃ b0 b1 b2 b3 rest, l = b0 :: b1 :: b2 :: b3 :: rest := by
  match l, h with
  | b0 :: b1 :: b2 :: b3 :: rest, _ => exact ⟨b0, b1, b2, b3, rest, rfl⟩

theorem roundtrip_aux (buf : List Nat) (h : ∀ s ∈ buf, s < 2 ^ 32) :
    decodeDatagram (encodeBuffer buf) = buf := by
  induction buf with
  | nil => rfl
  | cons s rest ih =>
      have hs : s < 2 ^ 32 := h s (by simp)
      have hrest : ∀ x ∈ rest, x < 2 ^ 32 := fun x hx => h x (by simp [hx])
      simp only [encodeBuffer, to_le_bytes, List.cons_append, List.nil_append,
        decodeDatagram]
      rw [from_le_to_le s hs]
      show s :: decodeDatagram (encodeBuffer rest) = s :: rest
      rw [ih hrest]

theorem decode_encode_aux : ∀ bytes : List Nat, (∀ b ∈ bytes, b < 256) →
    encodeBuffer (decodeDatagram bytes) = bytes.take (4 * (bytes.length / 4)) := by
  intro bytes
  induction bytes using decodeDatagram.induct with
  | case1 b0 b1 b2 b3 rest ih =>
      intro h
      have hb0 : b0 < 256 := h b0 (by simp)
      have hb1 : b1 < 256 := h b1 (by simp)
      have hb2 : b2 < 256 := h b2 (by simp)
      have hb3 : b3 < 256 := h b3 (by simp)
      have hrest : ∀ b ∈ rest, b < 256 := fun b hb => h b (by simp [hb])
      have h4 : 4 * ((b0 :: b1 :: b2 :: b3 :: rest).length / 4)
          = 4 * (rest.length / 4) + 1 + 1 + 1 + 1 := by
        simp only [List.length_cons]
        omega
      rw [h4]
      simp only [decodeDatagram, encodeBuffer, List.take_succ_cons]
      rw [to_le_from_le b0 b1 b2 b3 hb0 hb1 hb2 hb3]
      simp only [List.cons_append, List.nil_append]
      rw [ih hrest]
  | case2 l hno =>
      intro _
      have hlen : l.length < 4 := by
        by_contra hge
        obtain ⟨b0, b1, b2, b3, rest, rfl⟩ := exists_four_split l (by omega)
        exact hno b0 b1 b2 b3 rest rfl
      have h0 : l.length / 4 = 0 := by omega
      rw [decodeDatagram_eq_nil l hlen, h0]
      rfl

/-- C1: encoding a stereo frame buffer of finite f32 samples into a datagram
as the sender thread does (`to_le_bytes` per sample, concatenated) and decoding
the bytes as the receiver thread does (`from_le_bytes` per 4-byte chunk)
reproduces the original buffer exactly, bit pattern for bit pattern. -/
theorem stereo_roundtrip (buf : List Nat) (_hstereo : buf.length % 2 = 0)
    (hbits : ∀ s ∈ buf, s < 2 ^ 32) :
    decodeDatagram (encodeBuffer buf) = buf :=
  roundtrip_aux buf hbits

/-- Witness for C1 on the stereo buffer holding twice the bit pattern of
`0.5f32` (`0x3F000000`). -/
theorem stereo_roundtrip_witness :
    decodeDatagram (encodeBuffer [1056964608, 1056964608])
      = [1056964608, 1056964608] :=
  stereo_roundtrip [1056964608, 1056964608] (by decide) (by decide)

/-- C2 counterexample: the claim says the sender's per-sample encoder is not
the inverse of the receiver's per-sample decoder (different byte orders).  In
the code both sides use little-endian (`to_le_bytes` at main.rs:192,
`from_le_bytes` at main.rs:105): there is no 32-bit sample pattern on which
decoding the encoded bytes fails to reproduce the sample. -/
theorem byte_order_mismatch_refuted :
    ¬ ∃ s : Nat, s < 2 ^ 32 ∧ decodeDatagram (to_le_bytes s) ≠ [s] := by
  rintro ⟨s, hs, hne⟩
  apply hne
  simp only [to_le_bytes, decodeDatagram]
  rw [from_le_to_le s hs]

/-- C2 amended: the transmitter's sample encoder and the receiver's sample
decoder use the same byte order (little-endian) and are mutually inverse: the
receiver decodes an encoded sample back to the same bit pattern, and the
sender re-encodes a decoded 4-byte group back to the same bytes. -/
theorem byte_order_consistent (s : Nat) (hs : s < 2 ^ 32)
    (b0 b1 b2 b3 : Nat) (h0 : b0 < 256) (h1 : b1 < 256) (h2 : b2 < 256)
    (h3 : b3 < 256) :
    decodeDatagram (to_le_bytes s) = [s] ∧
      encodeBuffer (decodeDatagram [b0, b1, b2, b3]) = [b0, b1, b2, b3] := by
  constructor
  · simp only [to_le_bytes, decodeDatagram]
    rw [from_le_to_le s hs]
  · simp only [decodeDatagram, encodeBuffer, List.append_nil]
    rw [to_le_from_le b0 b1 b2 b3 h0 h1 h2 h3]

/-- Witness for the amended C2 at `0.5f32` (pattern `0x3F000000`) and its
little-endian bytes `[0, 0, 0, 63]`. -/
theorem byte_order_consistent_witness :
    decodeDatagram (to_le_bytes 1056964608) = [1056964608] ∧
      encodeBuffer (decodeDatagram [0, 0, 0, 63]) = [0, 0, 0, 63] :=
  byte_order_consistent 1056964608 (by decide) 0 0 0 63
    (by decide) (by decide) (by decide) (by decide)

/-- C4: decoding a byte sequence of length `L` yields exactly `L / 4` samples,
and only the first `4 * (L / 4)` bytes contribute: the trailing `L % 4` bytes
are discarded and produce no sample. -/
theorem decode_truncation (bytes : List Nat) :
    (decodeDatagram bytes).length = bytes.length / 4 ∧
      decodeDatagram (bytes.take (4 * (bytes.length / 4))) = decodeDatagram bytes := by
  refine ⟨decodeDatagram_length bytes, ?_⟩
  induction bytes using decodeDatagram.induct with
  | case1 b0 b1 b2 b3 rest ih =>
      have h4 : 4 * ((b0 :: b1 :: b2 :: b3 :: rest).length / 4)
          = 4 * (rest.length / 4) + 1 + 1 + 1 + 1 := by
        simp only [List.length_cons]
        omega
      rw [h4]
      simp only [List.take_succ_cons, decodeDatagram]
      rw [ih]
  | case2 l hno =>
      have hlen : l.length < 4 := by
        by_contra hge
        obtain ⟨b0, b1, b2, b3, rest, rfl⟩ := exists_four_split l (by omega)
        exact hno b0 b1 b2 b3 rest rfl
      have h0 : l.length / 4 = 0 := by omega
      rw [h0, decodeDatagram_eq_nil l hlen]
      rfl

/-- C9: re-encoding the samples the receiver decodes from a byte sequence
yields exactly the 4-byte-aligned prefix of the original sequence:
decode-then-encode is the identity on the first `4 * (L / 4)` bytes. -/
theorem decode_then_encode (bytes : List Nat) (h : ∀ b ∈ bytes, b < 256) :
    encodeBuffer (decodeDatagram bytes) = bytes.take (4 * (bytes.length / 4)) :=
  decode_encode_aux bytes h

/-- Witness for C9 on the 6-byte sequence `[1, 2, 3, 4, 5, 6]`: decode keeps
one sample, re-encoding returns the aligned 4-byte prefix. -/
theorem decode_then_encode_witness :
    encodeBuffer (decodeDatagram [1, 2, 3, 4, 5, 6])
      = [1, 2, 3, 4, 5, 6].take (4 * ([1, 2, 3, 4, 5, 6].length / 4)) :=
  decode_then_encode [1, 2, 3, 4, 5, 6] (by decide)

theorem copySamples_length (samples data : List Nat) :
    (copySamples samples data).length = data.length := by
  induction samples generalizing data with
  | nil => rfl
  | cons s ss ih =>
      cases data with
      | nil => rfl
      | cons d ds => simp [copySamples, ih]

theorem copySamples_get (samples data : List Nat) (i : Nat) :
    (copySamples samples data).get? i =
      if i < min data.length samples.length then samples.get? i
      else data.get? i := by
  induction samples generalizing data i with
  | nil => simp [copySamples]
  | cons s ss ih =>
      cases data with
      | nil => simp [copySamples]
      | cons d ds =>
          cases i with
          | zero => simp [copySamples]
          | succ j =>
              simp only [copySamples, List.get?_cons_succ, List.length_cons,
                ih, Nat.succ_min_succ, Nat.succ_lt_succ_iff]

/-- C6: when the playback callback obtains a frame buffer from the inbound
queue, the output buffer keeps its length; each position below
`min (output length) (buffer length)` now holds the arrived buffer's sample at
that position, and every position at or beyond that bound retains exactly the
value it held before the callback. -/
theorem playback_copy (samples data : List Nat) (i : Nat) :
    (output_data_fn (some samples) data).length = data.length ∧
      (output_data_fn (some samples) data).get? i =
        if i < min data.length samples.length then samples.get? i
        else data.get? i :=
  ⟨copySamples_length samples data, copySamples_get samples data i⟩

/-- C7 counterexample: the 4096-byte reception buffer does not equal 1024
stereo sample-pairs.  A full 4096-byte datagram decodes to 1024 samples, which
is 512 stereo pairs, not 1024. -/
theorem recv_capacity_counterexample :
    recvBufSize = 4096 ∧
      (decodeDatagram (List.replicate recvBufSize 0)).length / 2 = 512 ∧
      (decodeDatagram (List.replicate recvBufSize 0)).length / 2 ≠ 1024 := by
  have h := decodeDatagram_length (List.replicate recvBufSize 0)
  rw [List.length_replicate] at h
  refine ⟨rfl, ?_, ?_⟩ <;> rw [h] <;> decide

/-- C7 amended: the reception buffer capacity is 4096 bytes, which is 1024
4-byte samples, i.e. 512 stereo sample-pairs; consequently every frame buffer
the receiver pushes onto the inbound queue holds at most 1024 samples, i.e.
at most 512 stereo sample-pairs. -/
theorem recv_capacity (bytes : List Nat) (h : bytes.length ≤ recvBufSize) :
    recvBufSize = 4096 ∧ (decodeDatagram bytes).length ≤ 1024 ∧
      (decodeDatagram bytes).length / 2 ≤ 512 := by
  have hl := decodeDatagram_length bytes
  simp only [recvBufSize] at h
  refine ⟨rfl, ?_, ?_⟩ <;> rw [hl] <;> omega

/-- Witness for the amended C7 on a 4-byte datagram. -/
theorem recv_capacity_witness :
    recvBufSize = 4096 ∧ (decodeDatagram [0, 0, 0, 0]).length ≤ 1024 ∧
      (decodeDatagram [0, 0, 0, 0]).length / 2 ≤ 512 :=
  recv_capacity [0, 0, 0, 0] (by decide)

theorem chanRun_prefix {α : Type} : ∀ (ops : List (ChanOp α)) (q : List α),
    ∃ t, q ++ chanSends ops = chanRun ops q ++ t := by
  intro ops
  induction ops with
  | nil => exact fun q => ⟨q, by simp [chanRun, chanSends]⟩
  | cons op rest ih =>
      intro q
      cases op with
      | send x =>
          obtain ⟨t, ht⟩ := ih (q ++ [x])
          refine ⟨t, ?_⟩
          simp only [chanSends, chanRun]
          rw [List.append_cons, ht]
      | recv =>
          cases q with
          | nil =>
              obtain ⟨t, ht⟩ := ih []
              exact ⟨t, by simpa [chanSends, chanRun] using ht⟩
          | cons y q' =>
              obtain ⟨t, ht⟩ := ih q'
              refine ⟨t, ?_⟩
              simp only [chanSends, chanRun, List.cons_append]
              rw [ht]

/-- C10: on the FIFO channel model, whatever the interleaving of producer
sends and consumer receive attempts, the `i`-th value the consumer receives is
the `i`-th value the producer sent: messages enqueued in order A then B are
received with A before B. -/
theorem fifo_order {α : Type} (ops : List (ChanOp α)) (i : Nat)
    (h : i < (chanRun ops []).length) :
    (chanRun ops []).get? i = (chanSends ops).get? i := by
  obtain ⟨t, ht⟩ := chanRun_prefix ops []
  rw [List.nil_append] at ht
  rw [ht, List.get?_eq_getElem?, List.get?_eq_getElem?]
  exact (List.getElem?_append_left h).symm

/-- Witness for C10: sends of 1 then 2 interleaved with two receives; the
first received value is the first sent value. -/
theorem fifo_order_witness :
    (chanRun [ChanOp.send 1, ChanOp.send 2, ChanOp.recv, ChanOp.recv]
        ([] : List Nat)).get? 0
      = (chanSends [ChanOp.send 1, ChanOp.send 2, ChanOp.recv,
          ChanOp.recv]).get? 0 :=
  fifo_order [ChanOp.send 1, ChanOp.send 2, ChanOp.recv, ChanOp.recv] 0
    (by decide)

end Vban
